import Mathlib

/-!
# Verification of the txt-to-epub chapter pipeline

A shallow embedding of the text segmentation and normalization pipeline of
`src/lib/index.js` (class `TxtToEpubConverter`), together with proofs of the
specified properties.

Modelling conventions:
* JavaScript strings are modelled by Lean `String` (a list of Unicode scalar
  values).  Where JavaScript counts UTF-16 code units (`String.prototype.length`)
  we use `jsStringLength`, which counts a supplementary-plane character as two
  units.
* JavaScript numbers arising here are nonnegative integers (chapter numbers,
  counts); they are modelled as `Nat`, exact within the double-precision safe
  range.  The sort comparator's subtraction is modelled in `Int`.
* `null` is modelled by `Option.none`.
* The JavaScript `Map` (insertion-ordered) is modelled by an association list
  whose keys appear in insertion order (`addToGroups`, `buildGroups`,
  `findGroup`).
* `Array.prototype.sort` with the numeric comparator is a stable sort; it is
  modelled by Mathlib's stable `List.insertionSort`.
-/

/-- The characters matched by the JavaScript regex class `\s`
(ECMAScript WhiteSpace ∪ LineTerminator), which is also exactly the set
stripped by `String.prototype.trim`. -/
def isJsWhitespace (c : Char) : Bool :=
  c = ' ' || c = '\t' || c = '\n' || c = '\x0b' || c = '\x0c' || c = '\r' ||
  c = '\u00A0' || c = '\u1680' || ('\u2000' ≤ c && c ≤ '\u200A') ||
  c = '\u2028' || c = '\u2029' || c = '\u202F' || c = '\u205F' ||
  c = '\u3000' || c = '\uFEFF'

/-- ECMAScript LineTerminator characters (not matched by `.` in a regex). -/
def isJsLineTerminator (c : Char) : Bool :=
  c = '\n' || c = '\r' || c = '\u2028' || c = '\u2029'

/-- `String.prototype.trim`: strip `isJsWhitespace` characters from both ends. -/
def jsTrimList (cs : List Char) : List Char :=
  ((cs.dropWhile isJsWhitespace).reverse.dropWhile isJsWhitespace).reverse

/-- `String.prototype.trim` on strings. -/
def jsTrim (s : String) : String :=
  String.mk (jsTrimList s.data)

/-- `content.split('\n')` at the character-list level. -/
def splitLinesList : List Char → List (List Char)
  | [] => [[]]
  | c :: rest =>
    if c = '\n' then [] :: splitLinesList rest
    else
      match splitLinesList rest with
      | [] => [[c]]
      | l :: ls => (c :: l) :: ls

/-- `content.split('\n')`. -/
def splitLines (s : String) : List String :=
  (splitLinesList s.data).map String.mk

/-- `lines.join('\n')` (JavaScript `Array.prototype.join` with separator `"\n"`). -/
def joinLines : List String → String
  | [] => ""
  | [l] => l
  | l :: ls => l ++ "\n" ++ joinLines ls

/-- JavaScript `String.prototype.length`: number of UTF-16 code units
(a supplementary-plane scalar counts as two). -/
def jsStringLength (s : String) : Nat :=
  s.data.foldl (fun n c => n + (if c.toNat < 65536 then 1 else 2)) 0

/-- The decimal digit character for a digit value (values `≥ 9` map to `'9'`;
only applied to values `< 10`). -/
def digitChar : Nat → Char
  | 0 => '0' | 1 => '1' | 2 => '2' | 3 => '3' | 4 => '4'
  | 5 => '5' | 6 => '6' | 7 => '7' | 8 => '8' | _ => '9'

/-- Decimal digits of `n`, most significant first (`fuel`-structured so that it
reduces definitionally; `fuel ≥ n` suffices). Empty for `n = 0`. -/
def decDigitsAux : Nat → Nat → List Char
  | 0, _ => []
  | _, 0 => []
  | fuel + 1, n + 1 =>
    decDigitsAux fuel ((n + 1) / 10) ++ [digitChar ((n + 1) % 10)]

/-- JavaScript number-to-string conversion for nonnegative integers
(as in the template literal `` `第${arabic}章` ``). -/
def natToDecimal (n : Nat) : String :=
  if n = 0 then "0" else String.mk (decDigitsAux n n)

/-- Decimal value of a digit string (JavaScript `parseInt(s, 10)` on a string
of ASCII digits; exact, see the module comment on number precision). -/
def parseDecimal (cs : List Char) : Nat :=
  cs.foldl (fun acc c => acc * 10 + (c.toNat - 48)) 0

/-- The `map` table of `chineseNumeralToNumber` (digit symbols). -/
def digitMap : Char → Option Nat
  | '零' => some 0 | '一' => some 1 | '二' => some 2 | '三' => some 3
  | '四' => some 4 | '五' => some 5 | '六' => some 6 | '七' => some 7
  | '八' => some 8 | '九' => some 9 | '两' => some 2
  | _ => none

/-- The `unitMap` table of `chineseNumeralToNumber` (unit symbols). -/
def unitMap : Char → Option Nat
  | '十' => some 10 | '百' => some 100 | '千' => some 1000
  | '万' => some 10000 | '亿' => some 100000000
  | _ => none

/-- The character loop of `chineseNumeralToNumber` (src/lib/index.js
lines 111–132).  `r`, `sec`, `num` are the `result`, `section` and `number`
accumulators; the final return value is `result + section + (number || 0)`. -/
def convLoop : List Char → Nat → Nat → Nat → Nat
  | [], r, sec, num => r + sec + num
  | c :: cs, r, sec, num =>
    match digitMap c with
    | some d => convLoop cs r sec d
    | none =>
      match unitMap c with
      | some u =>
        if 10000 ≤ u then convLoop cs (r + (sec + num) * u) 0 0
        else convLoop cs r (sec + (if num = 0 then 1 else num) * u) 0
      | none => convLoop cs r sec 0

/-- `chineseNumeralToNumber` (src/lib/index.js lines 102–135).  Empty input
returns `null`; a string of ASCII digits is parsed directly (`/^\d+$/`);
otherwise the accumulator loop runs. -/
def chineseNumeralToNumber (chinese : String) : Option Nat :=
  if chinese = "" then none
  else if chinese.data.all Char.isDigit then some (parseDecimal chinese.data)
  else some (convLoop chinese.data 0 0 0)

/-- The character class `[零一二三四五六七八九十百千万两亿\d]` of the heading
regex in `splitIntoChapters`. -/
def isChapterClassChar (c : Char) : Bool :=
  "零一二三四五六七八九十百千万两亿".data.contains c || c.isDigit

/-- The heading regex `/^第([零一二三四五六七八九十百千万两亿\d]+)章(?:\s*(.*))?/`
of `splitIntoChapters` (line 152), applied to one line.  Returns
`(group 1, group 2)` on a match: group 1 is the numeral run (greedy over the
class, which must be followed by `章`), group 2 is the rest of the line after
`章` with leading `\s*` stripped and truncated at the first LineTerminator
(`.` does not match line terminators); an absent group 2 is the empty string. -/
def matchChapterHeadingList : List Char → Option (String × String)
  | '第' :: rest =>
    let numChars := rest.takeWhile isChapterClassChar
    if numChars = [] then none
    else
      match rest.dropWhile isChapterClassChar with
      | '章' :: rest3 =>
        some (String.mk numChars,
          String.mk ((rest3.dropWhile isJsWhitespace).takeWhile
            (fun c => !isJsLineTerminator c)))
      | _ => none
  | _ => none

/-- The heading regex applied to a line (match on the line's characters). -/
def matchChapterHeading (line : String) : Option (String × String) :=
  matchChapterHeadingList line.data

/-- A chapter record `{ title, data }` as built by `splitIntoChapters`. -/
structure Chapter where
  title : String
  data : String
deriving DecidableEq

/-- The canonical-title computation of `splitIntoChapters` (lines 164–172):
normalize the numeral; on success rebuild `` `第${arabic}章${suffix ? ' ' + suffix : ''}`.trim() ``,
otherwise fall back to `line.trim()`.  (`arabic` is never `NaN`: the regex
guard guarantees `parseInt` sees only digits.) -/
def canonicalTitle (numToken suffixRaw line : String) : String :=
  let suffix := jsTrim suffixRaw
  match chineseNumeralToNumber numToken with
  | some arabic =>
    jsTrim ("第" ++ natToDecimal arabic ++ "章" ++
      (if suffix ≠ "" then " " ++ suffix else ""))
  | none => jsTrim line

/-- Flushing an accumulated chapter (lines 156–162 and 182–188): join the
content lines with `'\n'`, trim, and substitute the placeholder body when the
result is empty. -/
def flushChapter (title : String) (content : List String) : Chapter :=
  let chapterData := jsTrim (joinLines content)
  { title := title,
    data := if 0 < jsStringLength chapterData then chapterData
            else "(本章暂无内容)" }

/-- The line loop of `splitIntoChapters` (lines 150–188): state is
`none` (outside any chapter) or `some (title, contentLines)`.  The JS code
tests `if (currentChapter)` by truthiness; a set title is never the empty
string (it is a trimmed string containing `第`), so `Option` is faithful. -/
def segmentLoop : List String → Option (String × List String) → List Chapter
  | [], none => []
  | [], some (t, content) => [flushChapter t content]
  | line :: rest, st =>
    match matchChapterHeading line with
    | some (num, suf) =>
      let newTitle := canonicalTitle num suf line
      match st with
      | some (t, content) =>
        flushChapter t content :: segmentLoop rest (some (newTitle, []))
      | none => segmentLoop rest (some (newTitle, []))
    | none =>
      match st with
      | some (t, content) => segmentLoop rest (some (t, content ++ [line]))
      | none => segmentLoop rest none

/-- The pure segmentation part of `splitIntoChapters` (lines 142–188), before
duplicate removal. -/
def segmentChapters (content : String) : List Chapter :=
  segmentLoop (splitLines content) none

/-- `getFirstNChars` (lines 204–207): strip every character that is not a CJK
ideograph (`一`–`龥`) or ASCII alphanumeric, then take the first `n`
characters (all remaining characters are BMP, so `substring` counts
characters). -/
def isFingerprintChar (c : Char) : Bool :=
  ('一' ≤ c && c ≤ '龥') || ('a' ≤ c && c ≤ 'z') ||
  ('A' ≤ c && c ≤ 'Z') || c.isDigit

/-- `getFirstNChars(text, n)` (lines 204–207). -/
def getFirstNChars (text : String) (n : Nat) : String :=
  String.mk ((text.data.filter isFingerprintChar).take n)

/-- The fingerprint of a chapter body: `getFirstNChars(chapter.data)` with the
default `n = 5`, as used by the deduplicator (lines 243, 247). -/
def fingerprint (c : Chapter) : String :=
  getFirstNChars c.data 5

/-- The pattern `/^第(\d+)章/` of `removeDuplicateChapters` (line 218):
parse the chapter number from a canonical title. -/
def matchChapterNumber (title : String) : Option Nat :=
  match title.data with
  | '第' :: rest =>
    let ds := rest.takeWhile Char.isDigit
    if ds = [] then none
    else
      match rest.dropWhile Char.isDigit with
      | '章' :: _ => some (parseDecimal ds)
      | _ => none
  | _ => none

/-- One `Map` update of the grouping loop (lines 225–228): append `c` to the
list at key `num`, creating the key at the end on first use (JS `Map`
preserves key insertion order). -/
def addToGroups (groups : List (Nat × List Chapter)) (num : Nat) (c : Chapter) :
    List (Nat × List Chapter) :=
  match groups with
  | [] => [(num, [c])]
  | (k, l) :: gs =>
    if k = num then (k, l ++ [c]) :: gs else (k, l) :: addToGroups gs num c

/-- The grouping loop of `removeDuplicateChapters` (lines 221–230): chapters
whose title does not match `/^第(\d+)章/` are skipped (they enter no group). -/
def buildGroups : List Chapter → List (Nat × List Chapter) →
    List (Nat × List Chapter)
  | [], groups => groups
  | c :: cs, groups =>
    match matchChapterNumber c.title with
    | some num => buildGroups cs (addToGroups groups num c)
    | none => buildGroups cs groups

/-- `Map.get` on the grouping map. -/
def findGroup (groups : List (Nat × List Chapter)) (n : Nat) :
    Option (List Chapter) :=
  match groups with
  | [] => none
  | (k, l) :: gs => if k = n then some l else findGroup gs n

/-- The inner comparison loop (lines 245–253): `current` is a duplicate iff
some already-kept chapter has the same first-5 fingerprint and that
fingerprint is nonempty. -/
def isDuplicateOf (kept : List Chapter) (current : Chapter) : Bool :=
  kept.any (fun k =>
    fingerprint current == fingerprint k &&
    decide (0 < jsStringLength (fingerprint current)))

/-- The per-group survivor loop (lines 241–258): walk the remaining chapters,
appending each non-duplicate to `kept`. -/
def dedupGroupLoop (kept : List Chapter) : List Chapter → List Chapter
  | [] => kept
  | c :: cs =>
    if isDuplicateOf kept c then dedupGroupLoop kept cs
    else dedupGroupLoop (kept ++ [c]) cs

/-- Processing of one group (lines 236–261): singleton groups pass through,
larger groups always keep the first element and filter the rest. -/
def dedupGroup (chapterList : List Chapter) : List Chapter :=
  if chapterList.length = 1 then chapterList
  else
    match chapterList with
    | [] => []
    | c :: rest => dedupGroupLoop [c] rest

/-- The sort comparator (lines 265–272): numeric difference of the parsed
numbers when both titles match `/^第(\d+)章/`, `0` otherwise. -/
def chapterCmp (a b : Chapter) : Int :=
  match matchChapterNumber a.title, matchChapterNumber b.title with
  | some na, some nb => (na : Int) - (nb : Int)
  | _, _ => 0

/-- `removeDuplicateChapters` (lines 214–278): group by parsed chapter number,
keep per-group survivors, concatenate in group-insertion order, and stable-sort
by the comparator. -/
def removeDuplicateChapters (chapters : List Chapter) : List Chapter :=
  let groups := buildGroups chapters []
  let uniqueChapters := (groups.map (fun g => dedupGroup g.2)).flatten
  uniqueChapters.insertionSort (fun a b => chapterCmp a b ≤ 0)

/-- `splitIntoChapters` (lines 142–196): segmentation followed by duplicate
removal. -/
def splitIntoChapters (content : String) : List Chapter :=
  removeDuplicateChapters (segmentChapters content)

/-- The ad-filtering step of `processTextFile` (lines 83–91): keep a line iff
it contains no configured keyword as a substring (`String.prototype.includes`). -/
def filterAdLines (lines adKeywords : List String) : List String :=
  lines.filter (fun line =>
    !(adKeywords.any (fun kw => decide (kw.data <:+: line.data))))

/-- `countTotalWords` (lines 300–307): sum over chapters of the UTF-16 length
of the body with every `\s` character removed. -/
def countTotalWords (chapters : List Chapter) : Nat :=
  chapters.foldl
    (fun total c =>
      total + jsStringLength
        (String.mk (c.data.data.filter (fun ch => !isJsWhitespace ch)))) 0

/-- The pure core of `convertTxtToEpub` (lines 439–449): split the processed
content into chapters and fail iff no chapter was found.  File access,
parameter validation and EPUB packaging are external collaborators and are
out of scope. -/
def convertCore (content : String) : Except String (List Chapter × Nat) :=
  let chapters := splitIntoChapters content
  if chapters.length = 0 then Except.error "未找到章节，请检查文件格式"
  else Except.ok (chapters, countTotalWords chapters)

/-- Re-serialization of a chapter list to plain text: each chapter's heading
line followed by its body, chapters concatenated with single newlines.
(Defined for the round-trip property of the specification.) -/
def reserialize : List Chapter → String
  | [] => ""
  | [c] => c.title ++ "\n" ++ c.data
  | c :: cs => c.title ++ "\n" ++ c.data ++ "\n" ++ reserialize cs

/-- A chapter whose title parses under `/^第(\d+)章/`. -/
def parseOk (c : Chapter) : Prop := (matchChapterNumber c.title).isSome = true

/-- The parsed chapter number, with default `0` (only used on `parseOk`
chapters). -/
def numKey (c : Chapter) : Nat := (matchChapterNumber c.title).getD 0

/-- Total number of chapters stored in the grouping map. -/
def groupsSize (groups : List (Nat × List Chapter)) : Nat :=
  (groups.map (fun g => g.2.length)).sum

/-- The lines of the round-trip serialization: each chapter's heading line
followed by its body's lines. -/
def serLines : List Chapter → List String
  | [] => []
  | c :: cs => c.title :: (splitLines c.data ++ serLines cs)

/-- A nonempty, whitespace-trimmed, single-line title suffix. -/
def goodSuffix (s : String) : Prop :=
  s ≠ "" ∧
  (∀ c, s.data.head? = some c → isJsWhitespace c = false) ∧
  (∀ c, s.data.getLast? = some c → isJsWhitespace c = false) ∧
  s.data.all (fun c => !isJsLineTerminator c) = true

/-- A chapter whose title is in canonical form `第<n>章` or `第<n>章 <suffix>`
(as produced by the segmenter with `n` in canonical decimal). -/
def goodChapter (c : Chapter) : Prop :=
  (∃ n, c.title = "第" ++ natToDecimal n ++ "章") ∨
  (∃ n s, goodSuffix s ∧ c.title = "第" ++ natToDecimal n ++ "章 " ++ s)

/-- No line of the chapter body matches the heading grammar. -/
def bodyLinesOk (c : Chapter) : Prop :=
  ∀ l ∈ splitLines c.data, matchChapterHeading l = none

/-! ## Helper lemmas -/

theorem foldl_add_weight (w : Char → Nat) :
    ∀ (cs : List Char) (n : Nat),
      cs.foldl (fun acc c => acc + w c) n = n + (cs.map w).sum
  | [], n => by simp
  | c :: cs, n => by
    simp [List.foldl_cons, foldl_add_weight w cs, Nat.add_assoc]

theorem jsStringLength_eq_zero_iff (s : String) :
    jsStringLength s = 0 ↔ s = "" := by
  unfold jsStringLength
  rw [foldl_add_weight]
  constructor
  · intro h
    cases hs : s.data with
    | nil =>
      cases s with
      | mk d => simp_all
    | cons c cs =>
      rw [hs] at h
      simp only [List.map_cons, List.sum_cons, Nat.zero_add] at h
      have : (if c.toNat < 65536 then 1 else 2) ≠ 0 := by split <;> simp
      omega
  · intro h
    subst h
    rfl

theorem segmentLoop_skip_preheading (lines : List String) :
    segmentLoop lines none =
      segmentLoop (lines.dropWhile (fun l => (matchChapterHeading l).isNone)) none := by
  induction lines with
  | nil => rfl
  | cons l rest ih =>
    cases hm : matchChapterHeading l with
    | none =>
      rw [List.dropWhile_cons_of_pos (by simp [hm])]
      simpa [segmentLoop, hm] using ih
    | some v =>
      rw [List.dropWhile_cons_of_neg (by simp [hm])]

/-! ## Claim theorems -/

/-- C3: the Normalizer satisfies the reference values
`十二 = 12`, `一百零五 = 105`, `两千三百 = 2300`, `"3" = 3`, `"" = null`,
and follows the single-pass accumulator algorithm: empty input is `null`,
all-digit input is parsed directly, other input runs the loop whose steps are:
a digit symbol replaces the pending digit; a unit symbol `≥ 10000` closes out
the section as `(section + pendingDigit) * unit` added to `result`; a unit
symbol `< 10000` adds `(pendingDigit or 1) * unit` to the section; an
unrecognized character resets the pending digit to `0`; the final value is
`result + section + pendingDigit`. -/
theorem C3_normalizer_reference_values :
    chineseNumeralToNumber "十二" = some 12 ∧
    chineseNumeralToNumber "一百零五" = some 105 ∧
    chineseNumeralToNumber "两千三百" = some 2300 ∧
    chineseNumeralToNumber "3" = some 3 ∧
    chineseNumeralToNumber "" = none ∧
    (∀ s, s ≠ "" → s.data.all Char.isDigit = false →
      chineseNumeralToNumber s = some (convLoop s.data 0 0 0)) ∧
    (∀ s, s ≠ "" → s.data.all Char.isDigit = true →
      chineseNumeralToNumber s = some (parseDecimal s.data)) ∧
    (∀ cs r sec p c d, digitMap c = some d →
      convLoop (c :: cs) r sec p = convLoop cs r sec d) ∧
    (∀ cs r sec p c u, digitMap c = none → unitMap c = some u → 10000 ≤ u →
      convLoop (c :: cs) r sec p = convLoop cs (r + (sec + p) * u) 0 0) ∧
    (∀ cs r sec p c u, digitMap c = none → unitMap c = some u → u < 10000 →
      convLoop (c :: cs) r sec p =
        convLoop cs r (sec + (if p = 0 then 1 else p) * u) 0) ∧
    (∀ cs r sec p c, digitMap c = none → unitMap c = none →
      convLoop (c :: cs) r sec p = convLoop cs r sec 0) ∧
    (∀ r sec p, convLoop [] r sec p = r + sec + p) := by
  refine ⟨by decide, by decide, by decide, by decide, by decide, ?_, ?_, ?_, ?_, ?_, ?_, ?_⟩
  · intro s h1 h2
    simp [chineseNumeralToNumber, h1, h2]
  · intro s h1 h2
    simp [chineseNumeralToNumber, h1, h2]
  · intro cs r sec p c d h
    simp [convLoop, h]
  · intro cs r sec p c u hd hu hge
    simp [convLoop, hd, hu, hge]
  · intro cs r sec p c u hd hu hlt
    simp [convLoop, hd, hu, Nat.not_le.mpr hlt]
  · intro cs r sec p c hd hu
    simp [convLoop, hd, hu]
  · intro r sec p
    rfl

theorem C3_normalizer_reference_values_witness :
    digitMap '一' = some 1 ∧ convLoop ['一'] 0 0 0 = convLoop [] 0 0 1 :=
  ⟨by decide, C3_normalizer_reference_values.2.2.2.2.2.2.2.1 [] 0 0 0 '一' 1 (by decide)⟩

/-- C5: end-to-end scenario A: the input `第一章 开始\n你好\n\n第二章\n世界`
segments into exactly two chapters with canonical titles `第1章 开始` and
`第2章` and bodies `你好` and `世界`, and `countTotalWords` over them is 4. -/
theorem C5_end_to_end_scenario_a :
    splitIntoChapters "第一章 开始\n你好\n\n第二章\n世界" =
      [⟨"第1章 开始", "你好"⟩, ⟨"第2章", "世界"⟩] ∧
    countTotalWords (splitIntoChapters "第一章 开始\n你好\n\n第二章\n世界") = 4 :=
  ⟨by decide, by decide⟩

/-- C6: lines before the first recognized heading are discarded: running the
segmentation loop from the initial (outside-any-chapter) state is unchanged by
first dropping every line up to the first heading match; and concretely
`intro text\n第1章\n正文` yields exactly `[{title 第1章, body 正文}]`,
with the `intro text` line absent. -/
theorem C6_preheading_lines_discarded :
    (∀ lines, segmentLoop lines none =
      segmentLoop (lines.dropWhile (fun l => (matchChapterHeading l).isNone)) none) ∧
    splitIntoChapters "intro text\n第1章\n正文" = [⟨"第1章", "正文"⟩] :=
  ⟨segmentLoop_skip_preheading, by decide⟩

/-- C7: the conversion core fails with a hard error exactly when segmentation
produces zero chapters; any nonzero chapter count proceeds to a successful
result. -/
theorem C7_error_iff_zero_chapters :
    ∀ content, (∃ e, convertCore content = Except.error e) ↔
      splitIntoChapters content = [] := by
  intro content
  unfold convertCore
  by_cases h : (splitIntoChapters content).length = 0
  · simp only [h, if_pos rfl]
    constructor
    · intro _
      exact List.length_eq_zero.mp h
    · intro _
      exact ⟨_, rfl⟩
  · simp only [h, if_neg h]
    constructor
    · intro ⟨e, he⟩
      exact absurd he (by simp)
    · intro hnil
      exact absurd (by simp [hnil]) h

/-! ## Grouping lemmas for the deduplicator -/

theorem addToGroups_parse (groups : List (Nat × List Chapter)) (num : Nat)
    (c : Chapter)
    (hg : ∀ k l, (k, l) ∈ groups → ∀ x ∈ l, matchChapterNumber x.title = some k)
    (hc : matchChapterNumber c.title = some num) :
    ∀ k l, (k, l) ∈ addToGroups groups num c →
      ∀ x ∈ l, matchChapterNumber x.title = some k := by
  induction groups with
  | nil =>
    intro k l hkl x hx
    simp only [addToGroups, List.mem_singleton, Prod.mk.injEq] at hkl
    obtain ⟨hk, hl⟩ := hkl
    subst hk; subst hl
    simp only [List.mem_singleton] at hx
    subst hx
    exact hc
  | cons g gs ih =>
    obtain ⟨k0, l0⟩ := g
    intro k l hkl x hx
    have hg0 : ∀ x ∈ l0, matchChapterNumber x.title = some k0 :=
      hg k0 l0 (List.mem_cons_self _ _)
    have hgs : ∀ k l, (k, l) ∈ gs → ∀ x ∈ l, matchChapterNumber x.title = some k :=
      fun k l hm => hg k l (List.mem_cons_of_mem _ hm)
    by_cases he : k0 = num
    · simp only [addToGroups, if_pos he, List.mem_cons, Prod.mk.injEq] at hkl
      rcases hkl with ⟨hk, hl⟩ | hkl
      · subst hk; subst hl
        rcases List.mem_append.mp hx with hx | hx
        · exact hg0 x hx
        · simp only [List.mem_singleton] at hx
          subst hx
          rw [hc, he]
      · exact hgs k l hkl x hx
    · simp only [addToGroups, if_neg he, List.mem_cons, Prod.mk.injEq] at hkl
      rcases hkl with ⟨hk, hl⟩ | hkl
      · subst hk; subst hl
        exact hg0 x hx
      · exact ih hgs k l hkl x hx

theorem buildGroups_parse :
    ∀ (cs : List Chapter) (groups : List (Nat × List Chapter)),
      (∀ k l, (k, l) ∈ groups → ∀ x ∈ l, matchChapterNumber x.title = some k) →
      ∀ k l, (k, l) ∈ buildGroups cs groups →
        ∀ x ∈ l, matchChapterNumber x.title = some k
  | [], groups, hg => hg
  | c :: cs, groups, hg => by
    unfold buildGroups
    cases hm : matchChapterNumber c.title with
    | none => exact buildGroups_parse cs groups hg
    | some num =>
      exact buildGroups_parse cs _ (addToGroups_parse groups num c hg hm)

theorem addToGroups_subset (groups : List (Nat × List Chapter)) (num : Nat)
    (c : Chapter) :
    ∀ k l, (k, l) ∈ addToGroups groups num c → ∀ x ∈ l,
      (∃ k0 l0, (k0, l0) ∈ groups ∧ x ∈ l0) ∨ x = c := by
  induction groups with
  | nil =>
    intro k l hkl x hx
    simp only [addToGroups, List.mem_singleton, Prod.mk.injEq] at hkl
    obtain ⟨_, hl⟩ := hkl
    subst hl
    simp only [List.mem_singleton] at hx
    exact Or.inr hx
  | cons g gs ih =>
    obtain ⟨k0, l0⟩ := g
    intro k l hkl x hx
    by_cases he : k0 = num
    · simp only [addToGroups, if_pos he, List.mem_cons, Prod.mk.injEq] at hkl
      rcases hkl with ⟨hk, hl⟩ | hkl
      · subst hl
        rcases List.mem_append.mp hx with hx | hx
        · exact Or.inl ⟨k0, l0, List.mem_cons_self _ _, hx⟩
        · simp only [List.mem_singleton] at hx
          exact Or.inr hx
      · exact Or.inl ⟨k, l, List.mem_cons_of_mem _ hkl, hx⟩
    · simp only [addToGroups, if_neg he, List.mem_cons, Prod.mk.injEq] at hkl
      rcases hkl with ⟨hk, hl⟩ | hkl
      · exact Or.inl ⟨k0, l0, List.mem_cons_self _ _, hl ▸ hx⟩
      · rcases ih k l hkl x hx with ⟨k1, l1, hm, hx1⟩ | hx1
        · exact Or.inl ⟨k1, l1, List.mem_cons_of_mem _ hm, hx1⟩
        · exact Or.inr hx1

theorem buildGroups_subset :
    ∀ (cs : List Chapter) (groups : List (Nat × List Chapter)),
      ∀ k l, (k, l) ∈ buildGroups cs groups → ∀ x ∈ l,
        (∃ k0 l0, (k0, l0) ∈ groups ∧ x ∈ l0) ∨ x ∈ cs
  | [], groups => by
    intro k l hkl x hx
    exact Or.inl ⟨k, l, hkl, hx⟩
  | c :: cs, groups => by
    unfold buildGroups
    cases hm : matchChapterNumber c.title with
    | none =>
      intro k l hkl x hx
      rcases buildGroups_subset cs groups k l hkl x hx with h | h
      · exact Or.inl h
      · exact Or.inr (List.mem_cons_of_mem _ h)
    | some num =>
      intro k l hkl x hx
      rcases buildGroups_subset cs _ k l hkl x hx with ⟨k0, l0, hm0, hx0⟩ | h
      · rcases addToGroups_subset groups num c k0 l0 hm0 x hx0 with h | h
        · exact Or.inl h
        · exact Or.inr (h ▸ List.mem_cons_self _ _)
      · exact Or.inr (List.mem_cons_of_mem _ h)

theorem addToGroups_size (groups : List (Nat × List Chapter)) (num : Nat)
    (c : Chapter) :
    groupsSize (addToGroups groups num c) = groupsSize groups + 1 := by
  induction groups with
  | nil => rfl
  | cons g gs ih =>
    obtain ⟨k0, l0⟩ := g
    by_cases he : k0 = num
    · simp only [addToGroups, if_pos he, groupsSize, List.map_cons,
        List.sum_cons, List.length_append, List.length_cons, List.length_nil]
      simp only [groupsSize] at ih
      omega
    · simp only [addToGroups, if_neg he, groupsSize, List.map_cons,
        List.sum_cons]
      simp only [groupsSize] at ih
      omega

theorem buildGroups_size :
    ∀ (cs : List Chapter) (groups : List (Nat × List Chapter)),
      groupsSize (buildGroups cs groups) ≤ groupsSize groups + cs.length
  | [], groups => Nat.le_refl _
  | c :: cs, groups => by
    unfold buildGroups
    cases hm : matchChapterNumber c.title with
    | none =>
      have := buildGroups_size cs groups
      simp only [List.length_cons]
      omega
    | some num =>
      have h1 := buildGroups_size cs (addToGroups groups num c)
      have h2 := addToGroups_size groups num c
      simp only [List.length_cons]
      omega

theorem findGroup_addToGroups (groups : List (Nat × List Chapter)) (num : Nat)
    (c : Chapter) (n : Nat) :
    findGroup (addToGroups groups num c) n =
      if n = num then some ((findGroup groups num).getD [] ++ [c])
      else findGroup groups n := by
  induction groups with
  | nil =>
    by_cases h : n = num
    · subst h
      simp [addToGroups, findGroup]
    · simp [addToGroups, findGroup, h, Ne.symm h]
  | cons g gs ih =>
    obtain ⟨k0, l0⟩ := g
    by_cases he : k0 = num
    · subst he
      by_cases h : n = k0
      · subst h
        simp [addToGroups, findGroup]
      · simp [addToGroups, findGroup, h, Ne.symm h]
    · by_cases h : k0 = n
      · subst h
        have hn : ¬k0 = num := he
        simp [addToGroups, findGroup, he, Ne.symm he]
      · simp [addToGroups, findGroup, he, h, ih]

theorem findGroup_buildGroups :
    ∀ (cs : List Chapter) (groups : List (Nat × List Chapter)) (n : Nat),
      findGroup (buildGroups cs groups) n =
        if (cs.filter (fun c => matchChapterNumber c.title == some n)) = []
        then findGroup groups n
        else some ((findGroup groups n).getD [] ++
          cs.filter (fun c => matchChapterNumber c.title == some n))
  | [], groups, n => by simp [buildGroups]
  | c :: cs, groups, n => by
    unfold buildGroups
    cases hm : matchChapterNumber c.title with
    | none =>
      have hfilter : (matchChapterNumber c.title == some n) = false := by
        simp [hm]
      simp only [List.filter_cons, hfilter]
      simp only [Bool.false_eq_true, if_false]
      exact findGroup_buildGroups cs groups n
    | some num =>
      rw [findGroup_buildGroups cs (addToGroups groups num c) n,
        findGroup_addToGroups groups num c n]
      by_cases hn : n = num
      · subst hn
        have hkeep : (matchChapterNumber c.title == some n) = true := by
          simp [hm]
        simp only [List.filter_cons, hkeep, if_true]
        by_cases hrest : (cs.filter (fun c => matchChapterNumber c.title == some n)) = []
        · simp [hrest]
        · simp [hrest, if_pos rfl]
      · have hdrop : (matchChapterNumber c.title == some n) = false := by
          simp only [hm, beq_iff_eq, Option.some.injEq]
          exact decide_eq_false (fun h => hn h.symm)
        simp only [List.filter_cons, hdrop]
        simp only [Bool.false_eq_true, if_false, if_neg hn]

theorem findGroup_mem :
    ∀ (groups : List (Nat × List Chapter)) (n : Nat) (l : List Chapter),
      findGroup groups n = some l → (n, l) ∈ groups
  | [], n, l => by simp [findGroup]
  | (k0, l0) :: gs, n, l => by
    intro hl
    unfold findGroup at hl
    by_cases h : k0 = n
    · rw [if_pos h] at hl
      have hll : l0 = l := Option.some.inj hl
      subst hll
      subst h
      exact List.mem_cons_self _ _
    · rw [if_neg h] at hl
      exact List.mem_cons_of_mem _ (findGroup_mem gs n l hl)

/-! ## Survivor-loop lemmas -/

theorem dedupGroupLoop_append :
    ∀ (l kept : List Chapter), ∃ t, dedupGroupLoop kept l = kept ++ t
  | [], kept => ⟨[], by simp [dedupGroupLoop]⟩
  | c :: cs, kept => by
    unfold dedupGroupLoop
    by_cases h : isDuplicateOf kept c
    · rw [if_pos h]
      exact dedupGroupLoop_append cs kept
    · rw [if_neg h]
      obtain ⟨t, ht⟩ := dedupGroupLoop_append cs (kept ++ [c])
      exact ⟨c :: t, by simp [ht]⟩

theorem dedupGroupLoop_subset :
    ∀ (l kept : List Chapter) (x : Chapter),
      x ∈ dedupGroupLoop kept l → x ∈ kept ∨ x ∈ l
  | [], kept, x => fun h => Or.inl h
  | c :: cs, kept, x => by
    unfold dedupGroupLoop
    by_cases h : isDuplicateOf kept c
    · rw [if_pos h]
      intro hx
      rcases dedupGroupLoop_subset cs kept x hx with h1 | h1
      · exact Or.inl h1
      · exact Or.inr (List.mem_cons_of_mem _ h1)
    · rw [if_neg h]
      intro hx
      rcases dedupGroupLoop_subset cs (kept ++ [c]) x hx with h1 | h1
      · rcases List.mem_append.mp h1 with h2 | h2
        · exact Or.inl h2
        · simp only [List.mem_singleton] at h2
          exact Or.inr (h2 ▸ List.mem_cons_self _ _)
      · exact Or.inr (List.mem_cons_of_mem _ h1)

theorem dedupGroupLoop_length :
    ∀ (l kept : List Chapter),
      (dedupGroupLoop kept l).length ≤ kept.length + l.length
  | [], kept => by simp [dedupGroupLoop]
  | c :: cs, kept => by
    unfold dedupGroupLoop
    by_cases h : isDuplicateOf kept c
    · rw [if_pos h]
      have := dedupGroupLoop_length cs kept
      simp only [List.length_cons]
      omega
    · rw [if_neg h]
      have h1 := dedupGroupLoop_length cs (kept ++ [c])
      have h2 : (kept ++ [c]).length = kept.length + 1 := by simp
      simp only [List.length_cons]
      omega

theorem dedupGroup_subset (l : List Chapter) (x : Chapter) :
    x ∈ dedupGroup l → x ∈ l := by
  unfold dedupGroup
  by_cases h : l.length = 1
  · rw [if_pos h]
    exact id
  · rw [if_neg h]
    cases l with
    | nil => exact fun hx => absurd hx (List.not_mem_nil x)
    | cons c rest =>
      intro hx
      rcases dedupGroupLoop_subset rest [c] x hx with h1 | h1
      · simp only [List.mem_singleton] at h1
        exact h1 ▸ List.mem_cons_self _ _
      · exact List.mem_cons_of_mem _ h1

theorem dedupGroup_length (l : List Chapter) :
    (dedupGroup l).length ≤ l.length := by
  unfold dedupGroup
  by_cases h : l.length = 1
  · rw [if_pos h]
  · rw [if_neg h]
    cases l with
    | nil => simp
    | cons c rest =>
      have h1 := dedupGroupLoop_length rest [c]
      have h2 : ([c] : List Chapter).length = 1 := rfl
      simp only [List.length_cons]
      omega

theorem dedupGroup_head (c : Chapter) (rest : List Chapter) :
    ∃ t, dedupGroup (c :: rest) = c :: t := by
  unfold dedupGroup
  by_cases h : (c :: rest).length = 1
  · rw [if_pos h]
    exact ⟨rest, rfl⟩
  · rw [if_neg h]
    obtain ⟨t, ht⟩ := dedupGroupLoop_append rest [c]
    exact ⟨t, by simpa using ht⟩

theorem isDuplicateOf_iff (kept : List Chapter) (x : Chapter) :
    isDuplicateOf kept x = true ↔
      (fingerprint x ≠ "" ∧ fingerprint x ∈ kept.map fingerprint) := by
  unfold isDuplicateOf
  rw [List.any_eq_true]
  constructor
  · rintro ⟨k, hk, hcond⟩
    rw [Bool.and_eq_true, beq_iff_eq, decide_eq_true_eq] at hcond
    obtain ⟨h1, h2⟩ := hcond
    constructor
    · intro he
      rw [he] at h2
      exact absurd h2 (by decide)
    · exact List.mem_map.mpr ⟨k, hk, h1.symm⟩
  · rintro ⟨hne, hmem⟩
    obtain ⟨k, hk, hfk⟩ := List.mem_map.mp hmem
    refine ⟨k, hk, ?_⟩
    rw [Bool.and_eq_true, beq_iff_eq, decide_eq_true_eq]
    refine ⟨hfk.symm, ?_⟩
    rcases Nat.eq_zero_or_pos (jsStringLength (fingerprint x)) with h | h
    · exact absurd ((jsStringLength_eq_zero_iff _).mp h) hne
    · exact h

/-- C4: within a group, the first chapter is always kept; each subsequent
chapter is dropped iff its fingerprint (first 5 CJK/alphanumeric characters of
the body) is nonempty and equals the fingerprint of some chapter already kept;
two chapters with empty fingerprints are never deduplicated against each
other. -/
theorem C4_group_fingerprint_dedup :
    (∀ first rest, ∃ t, dedupGroup (first :: rest) = first :: t) ∧
    (∀ kept x xs, dedupGroupLoop kept (x :: xs) =
      if fingerprint x ≠ "" ∧ fingerprint x ∈ kept.map fingerprint
      then dedupGroupLoop kept xs
      else dedupGroupLoop (kept ++ [x]) xs) ∧
    (∀ a b, fingerprint a = "" → fingerprint b = "" →
      dedupGroup [a, b] = [a, b]) := by
  refine ⟨dedupGroup_head, ?_, ?_⟩
  · intro kept x xs
    have hstep : dedupGroupLoop kept (x :: xs) =
        if isDuplicateOf kept x = true then dedupGroupLoop kept xs
        else dedupGroupLoop (kept ++ [x]) xs := rfl
    by_cases h : fingerprint x ≠ "" ∧ fingerprint x ∈ kept.map fingerprint
    · rw [hstep, if_pos ((isDuplicateOf_iff kept x).mpr h), if_pos h]
    · rw [hstep, if_neg (fun hc => h ((isDuplicateOf_iff kept x).mp hc)),
        if_neg h]
  · intro a b ha hb
    have hlen : ¬([a, b].length = 1) := by simp
    unfold dedupGroup
    rw [if_neg hlen]
    have hdup : isDuplicateOf [a] b = false := by
      rw [Bool.eq_false_iff]
      intro hc
      exact ((isDuplicateOf_iff [a] b).mp hc).1 hb
    have hstep : dedupGroupLoop [a] [b] =
        if isDuplicateOf [a] b = true then dedupGroupLoop [a] []
        else dedupGroupLoop ([a] ++ [b]) [] := rfl
    show dedupGroupLoop [a] [b] = [a, b]
    rw [hstep, if_neg (by simp [hdup])]
    rfl

theorem C4_group_fingerprint_dedup_witness :
    fingerprint ⟨"第1章", "~~~"⟩ = "" ∧
    dedupGroup [⟨"第1章", "~~~"⟩, ⟨"第1章", "！！"⟩] =
      [⟨"第1章", "~~~"⟩, ⟨"第1章", "！！"⟩] :=
  ⟨by decide,
    C4_group_fingerprint_dedup.2.2 ⟨"第1章", "~~~"⟩ ⟨"第1章", "！！"⟩
      (by decide) (by decide)⟩

/-- C1 (corrected): the claim asserts that a chapter whose title does not
parse under `/^第(\d+)章/` is still present in the output of
`removeDuplicateChapters`; in fact such a chapter is never added to any group
and is omitted from the output entirely.  This counterexample shows a
one-element input with an unparseable title producing an empty output. -/
theorem C1_unparseable_counterexample :
    matchChapterNumber "序章" = none ∧
    removeDuplicateChapters [⟨"序章", "hello"⟩] = [] ∧
    Chapter.mk "序章" "hello" ∉ removeDuplicateChapters [⟨"序章", "hello"⟩] :=
  ⟨by decide, by decide, by decide⟩

/-- C1 (amended): a chapter whose number cannot be parsed is indeed never
grouped or compared, but it does not pass through: every chapter in the
output of `removeDuplicateChapters` has a parseable `第<digits>章` title, so
unparseable-number chapters are dropped from the output entirely. -/
theorem C1_unparseable_dropped :
    ∀ (cs : List Chapter) (c : Chapter),
      c ∈ removeDuplicateChapters cs →
      (matchChapterNumber c.title).isSome = true := by
  intro cs c hc
  unfold removeDuplicateChapters at hc
  rw [List.mem_insertionSort] at hc
  rw [List.mem_flatten] at hc
  obtain ⟨l, hl, hcl⟩ := hc
  rw [List.mem_map] at hl
  obtain ⟨g, hg, hgl⟩ := hl
  obtain ⟨k, gl⟩ := g
  have hparse := buildGroups_parse cs [] (by simp) k gl hg c
    (dedupGroup_subset gl c (hgl ▸ hcl))
  rw [hparse]
  rfl

theorem C1_unparseable_dropped_witness :
    Chapter.mk "第1章" "x" ∈ removeDuplicateChapters [⟨"第1章", "x"⟩] ∧
    (matchChapterNumber (Chapter.mk "第1章" "x").title).isSome = true :=
  ⟨by decide,
    C1_unparseable_dropped [⟨"第1章", "x"⟩] ⟨"第1章", "x"⟩ (by decide)⟩

/-- C10: every output chapter of `removeDuplicateChapters` is one of the
input records (hence unmodified in title and body); the output is no longer
than the input; and for every chapter number occurring among the input titles,
the first input chapter bearing that number is present in the output. -/
theorem C10_dedup_invariants :
    ∀ cs : List Chapter,
      (∀ c, c ∈ removeDuplicateChapters cs → c ∈ cs) ∧
      (removeDuplicateChapters cs).length ≤ cs.length ∧
      (∀ n c,
        (cs.filter (fun x => matchChapterNumber x.title == some n)).head? =
          some c →
        c ∈ removeDuplicateChapters cs) := by
  intro cs
  refine ⟨?_, ?_, ?_⟩
  · intro c hc
    unfold removeDuplicateChapters at hc
    rw [List.mem_insertionSort, List.mem_flatten] at hc
    obtain ⟨l, hl, hcl⟩ := hc
    rw [List.mem_map] at hl
    obtain ⟨⟨k, gl⟩, hg, hgl⟩ := hl
    rcases buildGroups_subset cs [] k gl hg c
        (dedupGroup_subset gl c (hgl ▸ hcl)) with ⟨k0, l0, hm, _⟩ | h
    · exact absurd hm (List.not_mem_nil _)
    · exact h
  · unfold removeDuplicateChapters
    rw [(List.perm_insertionSort _ _).length_eq, List.length_flatten,
      List.map_map]
    have hle : ((buildGroups cs []).map
        (List.length ∘ fun g => dedupGroup g.2)).sum ≤
        ((buildGroups cs []).map (fun g => g.2.length)).sum :=
      List.sum_le_sum (fun g _ => dedupGroup_length g.2)
    have hsz := buildGroups_size cs []
    simp only [groupsSize, List.map_nil, List.sum_nil, Nat.zero_add] at hsz
    exact Nat.le_trans hle hsz
  · intro n c hc
    have hfil : cs.filter (fun x => matchChapterNumber x.title == some n) ≠ [] := by
      intro h
      rw [h] at hc
      simp at hc
    obtain ⟨t, ht⟩ :
        ∃ t, cs.filter (fun x => matchChapterNumber x.title == some n) =
          c :: t := by
      cases hf : cs.filter (fun x => matchChapterNumber x.title == some n) with
      | nil => exact absurd hf hfil
      | cons hd tl =>
        rw [hf] at hc
        simp only [List.head?_cons, Option.some.injEq] at hc
        exact ⟨tl, by rw [hc]⟩
    have hfind : findGroup (buildGroups cs []) n = some (c :: t) := by
      rw [findGroup_buildGroups cs [] n, ht]
      rw [if_neg (by simp)]
      simp [findGroup]
    have hmem := findGroup_mem _ _ _ hfind
    obtain ⟨t2, ht2⟩ := dedupGroup_head c t
    unfold removeDuplicateChapters
    rw [List.mem_insertionSort, List.mem_flatten]
    refine ⟨dedupGroup (c :: t), ?_, ht2 ▸ List.mem_cons_self _ _⟩
    rw [List.mem_map]
    exact ⟨(n, c :: t), hmem, rfl⟩

theorem C10_dedup_invariants_witness :
    (([⟨"第1章", "aaa"⟩] : List Chapter).filter
      (fun x => matchChapterNumber x.title == some 1)).head? =
        some ⟨"第1章", "aaa"⟩ ∧
    Chapter.mk "第1章" "aaa" ∈ removeDuplicateChapters [⟨"第1章", "aaa"⟩] :=
  ⟨by decide,
    (C10_dedup_invariants [⟨"第1章", "aaa"⟩]).2.2 1 ⟨"第1章", "aaa"⟩ (by decide)⟩

/-! ## Sortedness of the deduplicated output -/

theorem chapterCmp_nonpos_iff (a b : Chapter) (ha : parseOk a) (hb : parseOk b) :
    (chapterCmp a b ≤ 0) ↔ numKey a ≤ numKey b := by
  obtain ⟨na, hna⟩ := Option.isSome_iff_exists.mp ha
  obtain ⟨nb, hnb⟩ := Option.isSome_iff_exists.mp hb
  unfold chapterCmp numKey
  rw [hna, hnb]
  simp only [Option.getD_some]
  omega

theorem pairwise_orderedInsert_numKey (a : Chapter) (l : List Chapter)
    (ha : parseOk a) (hl : ∀ x ∈ l, parseOk x)
    (hs : l.Pairwise (fun x y => numKey x ≤ numKey y)) :
    (l.orderedInsert (fun x y => chapterCmp x y ≤ 0) a).Pairwise
      (fun x y => numKey x ≤ numKey y) := by
  induction l with
  | nil => simp
  | cons b bs ih =>
    have hb : parseOk b := hl b (List.mem_cons_self _ _)
    have hbs : ∀ x ∈ bs, parseOk x := fun x hx => hl x (List.mem_cons_of_mem _ hx)
    rw [List.pairwise_cons] at hs
    obtain ⟨hhead, htail⟩ := hs
    by_cases h : chapterCmp a b ≤ 0
    · rw [List.orderedInsert, if_pos h]
      rw [List.pairwise_cons]
      refine ⟨?_, List.pairwise_cons.mpr ⟨hhead, htail⟩⟩
      intro y hy
      rcases List.mem_cons.mp hy with hyb | hy
      · rw [hyb]
        exact (chapterCmp_nonpos_iff a b ha hb).mp h
      · exact Nat.le_trans ((chapterCmp_nonpos_iff a b ha hb).mp h) (hhead y hy)
    · rw [List.orderedInsert, if_neg h]
      rw [List.pairwise_cons]
      constructor
      · intro y hy
        rcases (List.mem_orderedInsert _).mp hy with hya | hy
        · rw [hya]
          have := (chapterCmp_nonpos_iff a b ha hb).not.mp h
          omega
        · exact hhead y hy
      · exact ih hbs htail

theorem pairwise_insertionSort_numKey (l : List Chapter)
    (hl : ∀ x ∈ l, parseOk x) :
    (l.insertionSort (fun x y => chapterCmp x y ≤ 0)).Pairwise
      (fun x y => numKey x ≤ numKey y) := by
  induction l with
  | nil => simp
  | cons b bs ih =>
    rw [List.insertionSort]
    refine pairwise_orderedInsert_numKey b _ (hl b (List.mem_cons_self _ _))
      ?_ ?_
    · intro x hx
      exact hl x (List.mem_cons_of_mem _ ((List.mem_insertionSort _).mp hx))
    · exact ih (fun x hx => hl x (List.mem_cons_of_mem _ hx))

/-- C2 (corrected): the claim asserts no two output chapters share a parsed
number; but when two chapters of a group have distinct nonempty fingerprints
both survive, so two output chapters can share the same parsed number.  This
counterexample shows a two-chapter input with equal numbers and different
bodies passing through unchanged. -/
theorem C2_strict_counterexample :
    removeDuplicateChapters [⟨"第1章", "aaaaaa"⟩, ⟨"第1章", "bbbbbb"⟩] =
      [⟨"第1章", "aaaaaa"⟩, ⟨"第1章", "bbbbbb"⟩] ∧
    matchChapterNumber (Chapter.mk "第1章" "aaaaaa").title = some 1 ∧
    matchChapterNumber (Chapter.mk "第1章" "bbbbbb").title = some 1 :=
  ⟨by decide, by decide, by decide⟩

/-- C2 (amended): in the output of `removeDuplicateChapters` the parsed
chapter numbers appear in ascending (non-decreasing) order: whenever chapter
`a` appears before chapter `b` in the output and both titles parse, the
parsed number of `a` is at most that of `b`.  (Several survivors of one group
share a number, so the order need not be strict.) -/
theorem C2_output_sorted_by_number :
    ∀ cs : List Chapter,
      (removeDuplicateChapters cs).Pairwise
        (fun a b => ∀ na nb, matchChapterNumber a.title = some na →
          matchChapterNumber b.title = some nb → na ≤ nb) := by
  intro cs
  have hok : ∀ x ∈ ((buildGroups cs []).map (fun g => dedupGroup g.2)).flatten,
      parseOk x := by
    intro x hx
    rw [List.mem_flatten] at hx
    obtain ⟨l, hl, hxl⟩ := hx
    rw [List.mem_map] at hl
    obtain ⟨⟨k, gl⟩, hg, hgl⟩ := hl
    have hparse := buildGroups_parse cs [] (by simp) k gl hg x
      (dedupGroup_subset gl x (hgl ▸ hxl))
    unfold parseOk
    rw [hparse]
    rfl
  have hpair := pairwise_insertionSort_numKey _ hok
  unfold removeDuplicateChapters
  refine hpair.imp ?_
  intro a b hab na nb hna hnb
  unfold numKey at hab
  rw [hna, hnb] at hab
  simpa using hab

theorem foldl_add_chapter_weight (w : Chapter → Nat) :
    ∀ (cs : List Chapter) (n : Nat),
      cs.foldl (fun acc c => acc + w c) n = n + (cs.map w).sum
  | [], n => by simp
  | c :: cs, n => by
    simp [List.foldl_cons, foldl_add_chapter_weight w cs, Nat.add_assoc]

/-- C9: line filtering, numeral normalization and stats collection are total
functions of their inputs (they are plain Lean functions here, so they cannot
throw): the numeral converter returns a (nonnegative, by the `Nat` result
type) integer for every nonempty string and `null` exactly on the empty
string; the ad filter always returns a sublist of its input; and
`countTotalWords` is the total sum of the whitespace-stripped body lengths
over any chapter list. -/
theorem C9_total_functions :
    (∀ s, (chineseNumeralToNumber s).isSome = true ↔ s ≠ "") ∧
    (∀ lines kws, List.Sublist (filterAdLines lines kws) lines) ∧
    (∀ chapters, countTotalWords chapters =
      (chapters.map (fun c => jsStringLength
        (String.mk (c.data.data.filter (fun ch => !isJsWhitespace ch))))).sum) := by
  refine ⟨?_, ?_, ?_⟩
  · intro s
    unfold chineseNumeralToNumber
    by_cases h : s = ""
    · simp [h]
    · simp [h, apply_ite Option.isSome]
  · intro lines kws
    exact List.filter_sublist lines
  · intro chapters
    unfold countTotalWords
    rw [foldl_add_chapter_weight]
    exact Nat.zero_add _

/-! ## Round-trip serialization: definitions and decimal lemmas -/

theorem string_eq_of_data (s t : String) (h : s.data = t.data) : s = t := by
  cases s
  cases t
  exact congrArg String.mk h

theorem digitChar_isDigit : ∀ d, (digitChar d).isDigit = true := by
  intro d
  rcases d with _|_|_|_|_|_|_|_|_|d <;> rfl

theorem digitChar_toNat (d : Nat) (h : d < 10) : (digitChar d).toNat = 48 + d := by
  interval_cases d <;> rfl

theorem parseDecimal_concat (xs : List Char) (c : Char) :
    parseDecimal (xs ++ [c]) = parseDecimal xs * 10 + (c.toNat - 48) := by
  unfold parseDecimal
  rw [List.foldl_append]
  rfl

theorem parseDecimal_decDigitsAux :
    ∀ (fuel n : Nat), n ≤ fuel → parseDecimal (decDigitsAux fuel n) = n
  | 0, 0, _ => rfl
  | 0, n + 1, h => absurd h (by omega)
  | fuel + 1, 0, _ => rfl
  | fuel + 1, n + 1, h => by
    unfold decDigitsAux
    rw [parseDecimal_concat]
    have hdiv : (n + 1) / 10 < n + 1 := Nat.div_lt_self (Nat.succ_pos n) (by omega)
    have hih := parseDecimal_decDigitsAux fuel ((n + 1) / 10) (by omega)
    rw [hih, digitChar_toNat _ (Nat.mod_lt _ (by omega))]
    have := Nat.div_add_mod (n + 1) 10
    omega

theorem decDigitsAux_digits :
    ∀ (fuel n : Nat), ∀ c ∈ decDigitsAux fuel n, c.isDigit = true
  | 0, _ => by simp [decDigitsAux]
  | fuel + 1, 0 => by simp [decDigitsAux]
  | fuel + 1, n + 1 => by
    unfold decDigitsAux
    intro c hc
    rcases List.mem_append.mp hc with h | h
    · exact decDigitsAux_digits fuel _ c h
    · simp only [List.mem_singleton] at h
      exact h ▸ digitChar_isDigit _

theorem decDigitsAux_ne_nil (fuel n : Nat) :
    decDigitsAux (fuel + 1) (n + 1) ≠ [] := by
  simp [decDigitsAux]

theorem natToDecimal_digits (n : Nat) :
    ∀ c ∈ (natToDecimal n).data, c.isDigit = true := by
  unfold natToDecimal
  by_cases h : n = 0
  · rw [if_pos h]
    intro c hc
    simp only [show ("0" : String).data = ['0'] from rfl, List.mem_singleton] at hc
    subst hc
    rfl
  · rw [if_neg h]
    exact decDigitsAux_digits n n

theorem natToDecimal_ne_empty (n : Nat) : natToDecimal n ≠ "" := by
  unfold natToDecimal
  by_cases h : n = 0
  · rw [if_pos h]
    decide
  · rw [if_neg h]
    intro he
    have hd : decDigitsAux n n = [] := congrArg String.data he
    obtain ⟨m, rfl⟩ := Nat.exists_eq_succ_of_ne_zero h
    exact decDigitsAux_ne_nil m m hd

theorem chineseNumeralToNumber_natToDecimal (n : Nat) :
    chineseNumeralToNumber (natToDecimal n) = some n := by
  by_cases h : n = 0
  · subst h
    decide
  · unfold chineseNumeralToNumber
    rw [if_neg (natToDecimal_ne_empty n)]
    rw [if_pos (List.all_eq_true.mpr (natToDecimal_digits n))]
    unfold natToDecimal
    rw [if_neg h]
    obtain ⟨m, rfl⟩ := Nat.exists_eq_succ_of_ne_zero h
    exact congrArg some (parseDecimal_decDigitsAux (m + 1) (m + 1) (Nat.le_refl _))

/-! ## Parsing canonical titles -/

theorem takeWhile_append_stop (p : Char → Bool) :
    ∀ (xs : List Char) (y : Char) (ys : List Char),
      (∀ x ∈ xs, p x = true) → p y = false →
      ((xs ++ y :: ys).takeWhile p = xs ∧ (xs ++ y :: ys).dropWhile p = y :: ys)
  | [], y, ys, _, hy => by
    simp [List.takeWhile_cons, List.dropWhile_cons, hy]
  | x :: xs, y, ys, hxs, hy => by
    have hx : p x = true := hxs x (List.mem_cons_self _ _)
    have hrest := takeWhile_append_stop p xs y ys
      (fun z hz => hxs z (List.mem_cons_of_mem _ hz)) hy
    simp only [List.cons_append, List.takeWhile_cons, List.dropWhile_cons, hx,
      if_true]
    exact ⟨by rw [hrest.1], by rw [hrest.2]⟩

theorem isChapterClassChar_of_digit (c : Char) (h : c.isDigit = true) :
    isChapterClassChar c = true := by
  simp [isChapterClassChar, h]

theorem dropWhile_eq_self_of_head (p : Char → Bool) (cs : List Char)
    (h : ∀ c, cs.head? = some c → p c = false) : cs.dropWhile p = cs := by
  cases cs with
  | nil => rfl
  | cons c rest =>
    rw [List.dropWhile_cons, if_neg (by simp [h c rfl])]

theorem jsTrimList_eq_self (cs : List Char)
    (h1 : ∀ c, cs.head? = some c → isJsWhitespace c = false)
    (h2 : ∀ c, cs.getLast? = some c → isJsWhitespace c = false) :
    jsTrimList cs = cs := by
  unfold jsTrimList
  rw [dropWhile_eq_self_of_head _ cs h1]
  rw [dropWhile_eq_self_of_head _ cs.reverse
    (fun c hc => h2 c ((List.head?_reverse cs) ▸ hc))]
  exact List.reverse_reverse cs

theorem matchChapterHeadingList_digits (d : List Char) (rest2 : List Char)
    (hd : ∀ c ∈ d, c.isDigit = true) (hne : d ≠ []) :
    matchChapterHeadingList ('第' :: (d ++ '章' :: rest2)) =
      some (String.mk d,
        String.mk ((rest2.dropWhile isJsWhitespace).takeWhile
          (fun c => !isJsLineTerminator c))) := by
  have hclass : ∀ c ∈ d, isChapterClassChar c = true :=
    fun c hc => isChapterClassChar_of_digit c (hd c hc)
  have hstop : isChapterClassChar '章' = false := by decide
  obtain ⟨htake, hdrop⟩ := takeWhile_append_stop isChapterClassChar d '章' rest2
    hclass hstop
  unfold matchChapterHeadingList
  simp only [htake, hdrop, if_neg hne]

/-- The character data of `"第" ++ t ++ "章" ++ u`. -/
theorem canonical_title_data (t u : String) :
    ("第" ++ t ++ "章" ++ u).data = '第' :: (t.data ++ '章' :: u.data) := by
  rw [String.data_append, String.data_append, String.data_append]
  simp [show ("第" : String).data = ['第'] from rfl,
    show ("章" : String).data = ['章'] from rfl]

theorem matchChapterHeading_canonical_nosuffix (n : Nat) :
    matchChapterHeading ("第" ++ natToDecimal n ++ "章") =
      some (natToDecimal n, "") := by
  unfold matchChapterHeading
  have hdata : ("第" ++ natToDecimal n ++ "章").data =
      '第' :: ((natToDecimal n).data ++ '章' :: ([] : List Char)) := by
    have h0 := canonical_title_data (natToDecimal n) ""
    simp only [show ("" : String).data = [] from rfl, String.append_empty] at h0
    exact h0
  rw [hdata, matchChapterHeadingList_digits _ _ (natToDecimal_digits n)
    (fun h => natToDecimal_ne_empty n (string_eq_of_data _ _ (by simp [h])))]
  rfl

theorem matchChapterHeading_canonical_suffix (n : Nat) (s : String)
    (hs : goodSuffix s) :
    matchChapterHeading ("第" ++ natToDecimal n ++ "章 " ++ s) =
      some (natToDecimal n, s) := by
  obtain ⟨hne, hhead, _, hterm⟩ := hs
  unfold matchChapterHeading
  have hdata : ("第" ++ natToDecimal n ++ "章 " ++ s).data =
      '第' :: ((natToDecimal n).data ++ '章' :: (' ' :: s.data)) := by
    have h1 : ("第" ++ natToDecimal n ++ "章 " ++ s).data =
        ("第" ++ natToDecimal n ++ "章" ++ (" " ++ s)).data := by
      apply congrArg String.data
      apply string_eq_of_data
      simp [String.data_append]
    rw [h1, canonical_title_data]
    simp [String.data_append, show (" " : String).data = [' '] from rfl]
  rw [hdata, matchChapterHeadingList_digits _ _ (natToDecimal_digits n)
    (fun h => natToDecimal_ne_empty n (string_eq_of_data _ _ (by simp [h])))]
  have hdropspace : ((' ' :: s.data).dropWhile isJsWhitespace) = s.data := by
    rw [List.dropWhile_cons, if_pos (by decide)]
    exact dropWhile_eq_self_of_head _ _ hhead
  rw [hdropspace]
  rw [List.takeWhile_eq_self_iff.mpr (by
    intro x hx
    exact (List.all_eq_true.mp hterm) x hx)]

/-! ## Rebuilding canonical titles -/

theorem jsTrim_eq_self_of_ends (t : String)
    (h1 : ∀ c, t.data.head? = some c → isJsWhitespace c = false)
    (h2 : ∀ c, t.data.getLast? = some c → isJsWhitespace c = false) :
    jsTrim t = t := by
  apply string_eq_of_data
  show jsTrimList t.data = t.data
  exact jsTrimList_eq_self t.data h1 h2

theorem data_nosuffix (n : Nat) :
    ("第" ++ natToDecimal n ++ "章").data =
      '第' :: ((natToDecimal n).data ++ ['章']) := by
  have h0 := canonical_title_data (natToDecimal n) ""
  simp only [show ("" : String).data = [] from rfl, String.append_empty] at h0
  exact h0

theorem data_suffix (n : Nat) (s : String) :
    ("第" ++ natToDecimal n ++ "章 " ++ s).data =
      '第' :: ((natToDecimal n).data ++ '章' :: ' ' :: s.data) := by
  have h1 : ("第" ++ natToDecimal n ++ "章 " ++ s) =
      ("第" ++ natToDecimal n ++ "章" ++ (" " ++ s)) := by
    apply string_eq_of_data
    simp [String.data_append]
  rw [h1, canonical_title_data]
  simp [String.data_append, show (" " : String).data = [' '] from rfl]

theorem data_ne_nil_of_ne_empty (s : String) (h : s ≠ "") : s.data ≠ [] := by
  intro hd
  exact h (string_eq_of_data _ _ (by simp [hd]))

theorem canonicalTitle_rebuild_nosuffix (n : Nat) (line : String) :
    canonicalTitle (natToDecimal n) "" line = "第" ++ natToDecimal n ++ "章" := by
  simp only [canonicalTitle, chineseNumeralToNumber_natToDecimal,
    show jsTrim "" = "" from rfl]
  rw [if_neg (by simp : ¬("" : String) ≠ ""), String.append_empty]
  apply jsTrim_eq_self_of_ends
  · intro c hc
    rw [data_nosuffix] at hc
    simp only [List.head?_cons, Option.some.injEq] at hc
    subst hc
    decide
  · intro c hc
    rw [data_nosuffix] at hc
    have hconcat : '第' :: ((natToDecimal n).data ++ ['章']) =
        ('第' :: (natToDecimal n).data) ++ ['章'] := by simp
    rw [hconcat, List.getLast?_concat] at hc
    simp only [Option.some.injEq] at hc
    subst hc
    decide

theorem canonicalTitle_rebuild_suffix (n : Nat) (s : String) (hs : goodSuffix s)
    (line : String) :
    canonicalTitle (natToDecimal n) s line =
      "第" ++ natToDecimal n ++ "章 " ++ s := by
  obtain ⟨hne, hhead, hlast, hterm⟩ := hs
  have htrim : jsTrim s = s := jsTrim_eq_self_of_ends s hhead hlast
  simp only [canonicalTitle, chineseNumeralToNumber_natToDecimal, htrim]
  rw [if_pos hne]
  have hEq : ("第" ++ natToDecimal n ++ "章" ++ (" " ++ s)) =
      ("第" ++ natToDecimal n ++ "章 " ++ s) := by
    apply string_eq_of_data
    simp [String.data_append]
  rw [hEq]
  apply jsTrim_eq_self_of_ends
  · intro c hc
    rw [data_suffix] at hc
    simp only [List.head?_cons, Option.some.injEq] at hc
    subst hc
    decide
  · intro c hc
    rw [data_suffix] at hc
    have hconcat : '第' :: ((natToDecimal n).data ++ '章' :: ' ' :: s.data) =
        (('第' :: (natToDecimal n).data) ++ ['章', ' ']) ++ s.data := by simp
    rw [hconcat, List.getLast?_append_of_ne_nil _
      (data_ne_nil_of_ne_empty s hne)] at hc
    exact hlast c hc

/-! ## Line splitting of the serialization -/

theorem isDigit_ne_newline (c : Char) (h : c.isDigit = true) : c ≠ '\n' := by
  intro he
  rw [he] at h
  exact absurd h (by decide)

theorem goodChapter_title_no_newline (c : Chapter) (h : goodChapter c) :
    ∀ ch ∈ c.title.data, ch ≠ '\n' := by
  rcases h with ⟨n, ht⟩ | ⟨n, s, hs, ht⟩
  · rw [ht, data_nosuffix]
    intro ch hch
    rcases List.mem_cons.mp hch with rfl | hch
    · decide
    · rcases List.mem_append.mp hch with hch | hch
      · exact isDigit_ne_newline ch (natToDecimal_digits n ch hch)
      · simp only [List.mem_singleton] at hch
        subst hch
        decide
  · rw [ht, data_suffix]
    intro ch hch
    rcases List.mem_cons.mp hch with rfl | hch
    · decide
    · rcases List.mem_append.mp hch with hch | hch
      · exact isDigit_ne_newline ch (natToDecimal_digits n ch hch)
      · rcases List.mem_cons.mp hch with rfl | hch
        · decide
        · rcases List.mem_cons.mp hch with rfl | hch
          · decide
          · intro he
            have := (List.all_eq_true.mp hs.2.2.2) ch hch
            rw [he] at this
            exact absurd this (by decide)

theorem splitLinesList_ne_nil : ∀ cs : List Char, splitLinesList cs ≠ []
  | [] => by simp [splitLinesList]
  | c :: rest => by
    unfold splitLinesList
    by_cases h : c = '\n'
    · simp [h]
    · rw [if_neg h]
      cases hr : splitLinesList rest with
      | nil => simp
      | cons l ls => simp

theorem splitLinesList_no_newline :
    ∀ cs : List Char, (∀ c ∈ cs, c ≠ '\n') → splitLinesList cs = [cs]
  | [] => fun _ => rfl
  | c :: rest => by
    intro h
    unfold splitLinesList
    rw [if_neg (h c (List.mem_cons_self _ _))]
    rw [splitLinesList_no_newline rest
      (fun x hx => h x (List.mem_cons_of_mem _ hx))]

theorem splitLinesList_append :
    ∀ (x y : List Char),
      splitLinesList (x ++ '\n' :: y) = splitLinesList x ++ splitLinesList y
  | [], y => by
    show splitLinesList ('\n' :: y) = [[]] ++ splitLinesList y
    show [] :: splitLinesList y = [[]] ++ splitLinesList y
    rfl
  | c :: x, y => by
    by_cases h : c = '\n'
    · subst h
      show splitLinesList ('\n' :: (x ++ '\n' :: y)) = _
      show [] :: splitLinesList (x ++ '\n' :: y) = _
      rw [splitLinesList_append x y]
      rfl
    · have e2 : ∀ z, splitLinesList (c :: z) =
          match splitLinesList z with
          | [] => [[c]]
          | l :: ls => (c :: l) :: ls := by
        intro z
        rw [show splitLinesList (c :: z) =
          if c = '\n' then [] :: splitLinesList z
          else match splitLinesList z with
            | [] => [[c]]
            | l :: ls => (c :: l) :: ls from rfl, if_neg h]
      show splitLinesList (c :: (x ++ '\n' :: y)) = _
      rw [e2 (x ++ '\n' :: y), e2 x, splitLinesList_append x y]
      cases hx : splitLinesList x with
      | nil => exact absurd hx (splitLinesList_ne_nil x)
      | cons l ls => rfl

theorem splitLines_title_body (t b : String) (rest : String)
    (ht : ∀ ch ∈ t.data, ch ≠ '\n') :
    splitLines (t ++ "\n" ++ b ++ "\n" ++ rest) =
      (t :: splitLines b) ++ splitLines rest := by
  unfold splitLines
  have hdata : (t ++ "\n" ++ b ++ "\n" ++ rest).data =
      t.data ++ '\n' :: (b.data ++ '\n' :: rest.data) := by
    simp [String.data_append, show ("\n" : String).data = ['\n'] from rfl]
  rw [hdata, splitLinesList_append, splitLinesList_append,
    splitLinesList_no_newline t.data ht]
  cases t
  simp

theorem splitLines_title_body_last (t b : String)
    (ht : ∀ ch ∈ t.data, ch ≠ '\n') :
    splitLines (t ++ "\n" ++ b) = t :: splitLines b := by
  unfold splitLines
  have hdata : (t ++ "\n" ++ b).data = t.data ++ '\n' :: b.data := by
    simp [String.data_append, show ("\n" : String).data = ['\n'] from rfl]
  rw [hdata, splitLinesList_append, splitLinesList_no_newline t.data ht]
  cases t
  simp

theorem splitLines_reserialize :
    ∀ (cs : List Chapter), cs ≠ [] →
      (∀ c ∈ cs, ∀ ch ∈ c.title.data, ch ≠ '\n') →
      splitLines (reserialize cs) = serLines cs
  | [], h, _ => absurd rfl h
  | [c], _, ht => by
    show splitLines (c.title ++ "\n" ++ c.data) = _
    rw [splitLines_title_body_last c.title c.data
      (ht c (List.mem_singleton.mpr rfl))]
    show _ = c.title :: (splitLines c.data ++ serLines [])
    simp [serLines]
  | c :: c2 :: cs, _, ht => by
    show splitLines (c.title ++ "\n" ++ c.data ++ "\n" ++ reserialize (c2 :: cs)) = _
    rw [splitLines_title_body c.title c.data (reserialize (c2 :: cs))
      (ht c (List.mem_cons_self _ _))]
    rw [splitLines_reserialize (c2 :: cs) (by simp)
      (fun x hx => ht x (List.mem_cons_of_mem _ hx))]
    show _ = c.title :: (splitLines c.data ++ serLines (c2 :: cs))
    simp

/-! ## Re-segmentation of the serialization -/

theorem segmentLoop_cons_some (l : String) (rs : List String) (t : String)
    (acc : List String) :
    segmentLoop (l :: rs) (some (t, acc)) =
      (match matchChapterHeading l with
       | some (num, suf) =>
         flushChapter t acc ::
           segmentLoop rs (some (canonicalTitle num suf l, []))
       | none => segmentLoop rs (some (t, acc ++ [l]))) := rfl

theorem segmentLoop_cons_none_state (l : String) (rs : List String) :
    segmentLoop (l :: rs) none =
      (match matchChapterHeading l with
       | some (num, suf) => segmentLoop rs (some (canonicalTitle num suf l, []))
       | none => segmentLoop rs none) := rfl

theorem segmentLoop_cons_some_heading (l : String) (rs : List String)
    (t : String) (acc : List String) (num suf : String)
    (h : matchChapterHeading l = some (num, suf)) :
    segmentLoop (l :: rs) (some (t, acc)) =
      flushChapter t acc :: segmentLoop rs (some (canonicalTitle num suf l, [])) := by
  rw [segmentLoop_cons_some, h]

theorem segmentLoop_cons_some_body (l : String) (rs : List String) (t : String)
    (acc : List String) (h : matchChapterHeading l = none) :
    segmentLoop (l :: rs) (some (t, acc)) =
      segmentLoop rs (some (t, acc ++ [l])) := by
  rw [segmentLoop_cons_some, h]

theorem segmentLoop_cons_none_heading (l : String) (rs : List String)
    (num suf : String) (h : matchChapterHeading l = some (num, suf)) :
    segmentLoop (l :: rs) none =
      segmentLoop rs (some (canonicalTitle num suf l, [])) := by
  rw [segmentLoop_cons_none_state, h]

theorem segmentLoop_body_lines :
    ∀ (bls : List String), (∀ l ∈ bls, matchChapterHeading l = none) →
      ∀ (rest : List String) (t : String) (acc : List String),
        segmentLoop (bls ++ rest) (some (t, acc)) =
          segmentLoop rest (some (t, acc ++ bls))
  | [], _ => by
    intro rest t acc
    simp
  | l :: bls, h => by
    intro rest t acc
    have hl : matchChapterHeading l = none := h l (List.mem_cons_self _ _)
    show segmentLoop (l :: (bls ++ rest)) (some (t, acc)) = _
    rw [segmentLoop_cons_some_body _ _ _ _ hl]
    rw [segmentLoop_body_lines bls
      (fun x hx => h x (List.mem_cons_of_mem _ hx)) rest t (acc ++ [l])]
    simp

theorem goodChapter_heading (c : Chapter) (hgood : goodChapter c) :
    ∃ num suf, matchChapterHeading c.title = some (num, suf) ∧
      ∀ line, canonicalTitle num suf line = c.title := by
  rcases hgood with ⟨n, ht⟩ | ⟨n, s, hs, ht⟩
  · refine ⟨natToDecimal n, "", ?_, ?_⟩
    · rw [ht]
      exact matchChapterHeading_canonical_nosuffix n
    · intro line
      rw [ht]
      exact canonicalTitle_rebuild_nosuffix n line
  · refine ⟨natToDecimal n, s, ?_, ?_⟩
    · rw [ht]
      exact matchChapterHeading_canonical_suffix n s hs
    · intro line
      rw [ht]
      exact canonicalTitle_rebuild_suffix n s hs line

theorem segmentLoop_serLines :
    ∀ (cs : List Chapter),
      (∀ c ∈ cs, goodChapter c ∧ bodyLinesOk c) →
      ∀ (t : String) (acc : List String),
        (segmentLoop (serLines cs) (some (t, acc))).map Chapter.title =
          t :: cs.map Chapter.title ∧
        (segmentLoop (serLines cs) (some (t, acc))).length = cs.length + 1
  | [], _ => by
    intro t acc
    exact ⟨rfl, rfl⟩
  | c :: cs, h => by
    intro t acc
    obtain ⟨hgood, hbody⟩ := h c (List.mem_cons_self _ _)
    have hrest : ∀ x ∈ cs, goodChapter x ∧ bodyLinesOk x :=
      fun x hx => h x (List.mem_cons_of_mem _ hx)
    obtain ⟨num, suf, hmatch, hcanon⟩ := goodChapter_heading c hgood
    obtain ⟨ih1, ih2⟩ := segmentLoop_serLines cs hrest c.title
      ([] ++ splitLines c.data)
    constructor
    · show (segmentLoop (c.title :: (splitLines c.data ++ serLines cs))
          (some (t, acc))).map Chapter.title = _
      rw [segmentLoop_cons_some_heading _ _ _ _ _ _ hmatch, hcanon c.title]
      rw [segmentLoop_body_lines (splitLines c.data) hbody (serLines cs)
        c.title []]
      simp only [List.map_cons, ih1]
      rfl
    · show (segmentLoop (c.title :: (splitLines c.data ++ serLines cs))
          (some (t, acc))).length = _
      rw [segmentLoop_cons_some_heading _ _ _ _ _ _ hmatch, hcanon c.title]
      rw [segmentLoop_body_lines (splitLines c.data) hbody (serLines cs)
        c.title []]
      simp only [List.length_cons, ih2]

/-- C8 (corrected): the round-trip claim fails as stated: a body line whose
leading whitespace was removed by the body `trim` can become a heading on
re-segmentation.  For `第一章\n 第二章\nx` the pipeline yields one chapter
(body `第二章\nx`), but re-segmenting its serialization yields two chapters. -/
theorem C8_roundtrip_counterexample :
    (splitIntoChapters "第一章\n 第二章\nx").length = 1 ∧
    (segmentChapters (reserialize
      (splitIntoChapters "第一章\n 第二章\nx"))).length = 2 :=
  ⟨by decide, by decide⟩

/-- C8 (amended): round-trip stability holds whenever every chapter of the
deduplicated list has a canonical title (`第<n>章`, optionally followed by one
space and a nonempty, trimmed, single-line suffix) and no line of its body
matches the heading grammar: re-segmenting the serialization then yields the
same chapter count and the same canonical titles. -/
theorem C8_roundtrip_restores_titles :
    ∀ (cs : List Chapter),
      (∀ c ∈ cs, goodChapter c ∧ bodyLinesOk c) →
      (segmentChapters (reserialize cs)).map Chapter.title =
        cs.map Chapter.title ∧
      (segmentChapters (reserialize cs)).length = cs.length := by
  intro cs h
  cases cs with
  | nil => exact ⟨by decide, by decide⟩
  | cons c cs =>
    obtain ⟨hgood, hbody⟩ := h c (List.mem_cons_self _ _)
    have hrest : ∀ x ∈ cs, goodChapter x ∧ bodyLinesOk x :=
      fun x hx => h x (List.mem_cons_of_mem _ hx)
    obtain ⟨num, suf, hmatch, hcanon⟩ := goodChapter_heading c hgood
    obtain ⟨ih1, ih2⟩ := segmentLoop_serLines cs hrest c.title
      ([] ++ splitLines c.data)
    unfold segmentChapters
    rw [splitLines_reserialize (c :: cs) (by simp)
      (fun x hx => goodChapter_title_no_newline x (h x hx).1)]
    constructor
    · show (segmentLoop (c.title :: (splitLines c.data ++ serLines cs))
          none).map Chapter.title = _
      rw [segmentLoop_cons_none_heading _ _ _ _ hmatch, hcanon c.title]
      rw [segmentLoop_body_lines (splitLines c.data) hbody (serLines cs)
        c.title []]
      exact ih1
    · show (segmentLoop (c.title :: (splitLines c.data ++ serLines cs))
          none).length = _
      rw [segmentLoop_cons_none_heading _ _ _ _ hmatch, hcanon c.title]
      rw [segmentLoop_body_lines (splitLines c.data) hbody (serLines cs)
        c.title []]
      rw [ih2]
      rfl

theorem C8_roundtrip_restores_titles_witness :
    (∀ c ∈ [Chapter.mk "第1章" "你好"], goodChapter c ∧ bodyLinesOk c) ∧
    (segmentChapters (reserialize [Chapter.mk "第1章" "你好"])).map
      Chapter.title = [Chapter.mk "第1章" "你好"].map Chapter.title ∧
    (segmentChapters (reserialize [Chapter.mk "第1章" "你好"])).length = 1 := by
  have hgc : ∀ c ∈ [Chapter.mk "第1章" "你好"], goodChapter c ∧ bodyLinesOk c := by
    intro c hc
    simp only [List.mem_singleton] at hc
    subst hc
    constructor
    · exact Or.inl ⟨1, by decide⟩
    · intro l hl
      have : splitLines (Chapter.mk "第1章" "你好").data = ["你好"] := by decide
      rw [this] at hl
      simp only [List.mem_singleton] at hl
      subst hl
      decide
  exact ⟨hgc, C8_roundtrip_restores_titles [Chapter.mk "第1章" "你好"] hgc⟩
